import Mathlib

/-!
Verification of the polygon-buffer consumer and wrapper of the 3d-render-web
repository, together with a spec-modelled puzzle engine for the claims about
the engine (which lives behind the wasm boundary and is not part of the
visible source).

The visible source is `src/main.ts` in two variants (a mouse-driven page and a
slider-driven page).  Its numeric values are JavaScript numbers read from a
`Float64Array`; we model finite double values exactly as rationals, an
out-of-bounds or non-canonical typed-array read as `none` (JavaScript
`undefined`), and the NaN that arises from arithmetic on `undefined` by the
`JNum.nan` constructor.
-/

/-- JavaScript number arising during the parse loop: either NaN or a finite
value, modelled exactly as a rational. -/
inductive JNum : Type where
  | nan : JNum
  | num : ℚ → JNum
deriving DecidableEq

/-- Coercion of a possibly-`undefined` read to a number, as JavaScript
arithmetic does it: `ToNumber(undefined) = NaN`. -/
def toNum (v : Option ℚ) : JNum :=
  match v with
  | none => JNum.nan
  | some q => JNum.num q

/-- JavaScript addition on our number model: NaN is absorbing. -/
def jadd : JNum → JNum → JNum
  | JNum.num a, JNum.num b => JNum.num (a + b)
  | _, _ => JNum.nan

/-- JavaScript multiplication on our number model: NaN is absorbing (the
operands produced by the parse loop are never infinities). -/
def jmul : JNum → JNum → JNum
  | JNum.num a, JNum.num b => JNum.num (a * b)
  | _, _ => JNum.nan

/-- JavaScript `<` on our number model: any comparison with NaN is false. -/
def jlt : JNum → JNum → Bool
  | JNum.num a, JNum.num b => decide (a < b)
  | _, _ => false

/-- Truncation toward zero, as JavaScript `ToInt32` starts with. -/
def ratTrunc (q : ℚ) : ℤ :=
  if 0 ≤ q then ⌊q⌋ else ⌈q⌉

/-- The unsigned 32-bit view of `ToInt32(v)`.  JavaScript bitwise operators
convert their operands with `ToInt32` (`undefined` becomes `0`) and operate on
the 32-bit pattern; because every mask used by the source is below `2^31`, the
results of `& mask` and the following `>>` are nonnegative, so the unsigned
view is faithful for the expressions that occur. -/
def toInt32u (v : Option ℚ) : ℕ :=
  match v with
  | none => 0
  | some q => ((ratTrunc q) % (4294967296 : ℤ)).toNat

/-- Reading `data[q]` on a `Float64Array`: a canonical (nonnegative integer)
index inside the array yields the element, anything else yields `undefined`. -/
def jsGet (data : List ℚ) (q : ℚ) : Option ℚ :=
  if q.den = 1 ∧ 0 ≤ q.num then data[q.num.toNat]? else none

/-- Number of iterations of `for (let i = 0; i < numPoints; i++)`: the count
of naturals `i` with `(i : ℚ) < q`; none when `numPoints` is NaN. -/
def jIter : JNum → ℕ
  | JNum.nan => 0
  | JNum.num q => if q ≤ 0 then 0 else (⌈q⌉).toNat

/-- The `Polygon` interface of `main.ts`.  TypeScript typing is structural, so
the two textually identical `interface Polygon` declarations of the two
variants denote one and the same type; each point component is a JavaScript
value (`none` models `undefined` coordinates read out of bounds). -/
structure Polygon : Type where
  points : List (Option ℚ × Option ℚ)
  color : String
deriving DecidableEq

namespace MouseVariant

/-- Color computation of `unpackData` (mouse variant, `main.ts` lines 33-39):
`red = (color & 0xff0000) >> 16`, `green = (color & 0x00ff00) >> 8`,
`blue = color & 0x0000ff`, interpolated into a CSS `rgb(r, g, b)` string. -/
def colorString (color : Option ℚ) : String :=
  let red := (toInt32u color &&& 0xff0000) >>> 16
  let green := (toInt32u color &&& 0x00ff00) >>> 8
  let blue := toInt32u color &&& 0x0000ff
  "rgb(" ++ toString red ++ ", " ++ toString green ++ ", " ++ toString blue ++ ")"

/-- Points collection of one record (`main.ts` lines 25-31): the inner `for`
loop reads `data[polygonIndex + 2 + i * 2]` and
`data[polygonIndex + 2 + i * 2 + 1]` and pushes the pair. -/
def recordPoints (data : List ℚ) (p : ℚ) (numPoints : JNum) :
    List (Option ℚ × Option ℚ) :=
  (List.range (jIter numPoints)).map fun (i : ℕ) =>
    (jsGet data (p + 2 + (i : ℚ) * 2), jsGet data (p + 2 + (i : ℚ) * 2 + 1))

/-- The `while (polygonIndex < data.length)` loop of `unpackData` (mouse
variant, `main.ts` lines 21-43), with explicit fuel standing in for possible
divergence (the JavaScript loop does not terminate when a record's
`numPoints` field is a negative number making the increment nonpositive);
`none` means the fuel ran out. -/
def unpackLoop (data : List ℚ) : ℕ → JNum → List Polygon → Option (List Polygon)
  | 0, _, _ => none
  | _ + 1, JNum.nan, acc => some acc.reverse
  | fuel + 1, JNum.num p, acc =>
    if p < (data.length : ℚ) then
      let numPoints := toNum (jsGet data p)
      let color := jsGet data (p + 1)
      let points := recordPoints data p numPoints
      unpackLoop data fuel
        (jadd (JNum.num p) (jadd (JNum.num 2) (jmul numPoints (JNum.num 2))))
        ({ points := points, color := colorString color } :: acc)
    else some acc.reverse

/-- The `unpackData` function of the mouse variant (`main.ts` lines 18-45).
Since every completed iteration advances `polygonIndex` by at least 2 or makes
it NaN except when a record announces a negative point count, fuel
`data.length + 1` is enough for every run that terminates at all on a
buffer walked with nonnegative point counts. -/
def unpackData (data : List ℚ) : Option (List Polygon) :=
  unpackLoop data (data.length + 1) (JNum.num 0) []

end MouseVariant

namespace SliderVariant

/-- Color computation of `unpackData` (slider variant, `main.ts` lines
132-138), textually identical to the mouse variant's. -/
def colorString (color : Option ℚ) : String :=
  let red := (toInt32u color &&& 0xff0000) >>> 16
  let green := (toInt32u color &&& 0x00ff00) >>> 8
  let blue := toInt32u color &&& 0x0000ff
  "rgb(" ++ toString red ++ ", " ++ toString green ++ ", " ++ toString blue ++ ")"

/-- Points collection of one record (slider variant, `main.ts` lines
124-130). -/
def recordPoints (data : List ℚ) (p : ℚ) (numPoints : JNum) :
    List (Option ℚ × Option ℚ) :=
  (List.range (jIter numPoints)).map fun (i : ℕ) =>
    (jsGet data (p + 2 + (i : ℚ) * 2), jsGet data (p + 2 + (i : ℚ) * 2 + 1))

/-- The parse loop of `unpackData` (slider variant, `main.ts` lines 120-142),
textually identical to the mouse variant's. -/
def unpackLoop (data : List ℚ) : ℕ → JNum → List Polygon → Option (List Polygon)
  | 0, _, _ => none
  | _ + 1, JNum.nan, acc => some acc.reverse
  | fuel + 1, JNum.num p, acc =>
    if p < (data.length : ℚ) then
      let numPoints := toNum (jsGet data p)
      let color := jsGet data (p + 1)
      let points := recordPoints data p numPoints
      unpackLoop data fuel
        (jadd (JNum.num p) (jadd (JNum.num 2) (jmul numPoints (JNum.num 2))))
        ({ points := points, color := colorString color } :: acc)
    else some acc.reverse

/-- The `unpackData` function of the slider variant (`main.ts` lines
117-144). -/
def unpackData (data : List ℚ) : Option (List Polygon) :=
  unpackLoop data (data.length + 1) (JNum.num 0) []

end SliderVariant

/-- One polygon record on the producer side: a packed color value and the
list of 2D points. -/
structure PolyRecord : Type where
  color : ℚ
  pts : List (ℚ × ℚ)
deriving DecidableEq

/-- Modelled from the spec: the engine-side serializer (not under `src/`, it
lives in the wasm engine) emits one record per polygon with the layout
`[pointCount, packedColor, x1, y1, ..., x_pointCount, y_pointCount]`
(spec section 3, Polygon Buffer). -/
def encodeRecord (r : PolyRecord) : List ℚ :=
  ((r.pts.length : ℚ)) :: r.color :: r.pts.flatMap fun xy => [xy.1, xy.2]

/-- Modelled from the spec: a well-formed polygon buffer is the concatenation
of well-formed records. -/
def encode (rs : List PolyRecord) : List ℚ :=
  rs.flatMap encodeRecord

/-- The polygon that the consumer is expected to produce for the record `r`:
the record's points in order and the decoded color string. -/
def polyOfRecord (r : PolyRecord) : Polygon :=
  { points := r.pts.map fun xy => (some xy.1, some xy.2)
    color := MouseVariant.colorString (some r.color) }

/-- The value of `polygonIndex` after processing the record starting at `p`:
`polygonIndex += 2 + numPoints * 2`. -/
def nextPi (data : List ℚ) (p : ℚ) : JNum :=
  jadd (JNum.num p) (jadd (JNum.num 2) (jmul (toNum (jsGet data p)) (JNum.num 2)))

/-- Checker for the precondition of the termination claim: walking the buffer
exactly as the parse loop does, every record-start read within bounds is
either `undefined` or a nonnegative value, within the given number of steps. -/
def startsNonneg (data : List ℚ) : ℕ → JNum → Bool
  | 0, _ => false
  | _ + 1, JNum.nan => true
  | fuel + 1, JNum.num p =>
    if p < (data.length : ℚ) then
      (match jsGet data p with
        | none => true
        | some v => decide (0 ≤ v)) && startsNonneg data fuel (nextPi data p)
    else true

/-- Instrumented read of `data[q]`: returns the value together with the array
as left behind by the access (a read never modifies the array). -/
def readArr (arr : List ℚ) (q : ℚ) : Option ℚ × List ℚ :=
  (jsGet arr q, arr)

/-- Instrumented points collection: threads the array state and the list of
index positions accessed, iterating `i` upward as the inner `for` loop does. -/
def pointsStAux (p : ℚ) : ℕ → ℕ → List ℚ × List ℚ →
    List (Option ℚ × Option ℚ) × (List ℚ × List ℚ)
  | _, 0, st => ([], st)
  | i, cnt + 1, st =>
    let rx := readArr st.1 (p + 2 + (i : ℚ) * 2)
    let ry := readArr rx.2 (p + 2 + (i : ℚ) * 2 + 1)
    let rest := pointsStAux p (i + 1) cnt
      (ry.2, st.2 ++ [p + 2 + (i : ℚ) * 2, p + 2 + (i : ℚ) * 2 + 1])
    ((rx.1, ry.1) :: rest.1, rest.2)

/-- Instrumented parse loop of the mouse variant's `unpackData`: the state is
the array contents paired with the list of index positions read so far. -/
def unpackLoopSt : ℕ → List ℚ × List ℚ → JNum → List Polygon →
    Option (List Polygon) × (List ℚ × List ℚ)
  | 0, st, _, _ => (none, st)
  | _ + 1, st, JNum.nan, acc => (some acc.reverse, st)
  | fuel + 1, st, JNum.num p, acc =>
    if p < (st.1.length : ℚ) then
      let rn := readArr st.1 p
      let numPoints := toNum rn.1
      let rc := readArr rn.2 (p + 1)
      let pr := pointsStAux p 0 (jIter numPoints) (rc.2, st.2 ++ [p, p + 1])
      unpackLoopSt fuel pr.2
        (jadd (JNum.num p) (jadd (JNum.num 2) (jmul numPoints (JNum.num 2))))
        ({ points := pr.1, color := MouseVariant.colorString rc.1 } :: acc)
    else (some acc.reverse, st)

/-- Instrumented run of the mouse variant's `unpackData`: result, final array
contents, and every index position read, in access order. -/
def unpackDataSt (data : List ℚ) : Option (List Polygon) × (List ℚ × List ℚ) :=
  unpackLoopSt (data.length + 1) (data, []) (JNum.num 0) []

/-- Opaque handle standing for the 2D canvas context object passed through to
`get_points`. -/
structure CanvasCtx : Type where
  id : ℕ
deriving DecidableEq

/-- One call to the wasm compute boundary, as issued by the wrappers. -/
inductive WasmCall : Type where
  | getPointsMouse (ctx : CanvasCtx) (width height mouseX mouseY : ℚ)
      (mouseDown : Bool) : WasmCall
  | getPointsCamera (width height cameraX cameraY cameraZ : ℚ) : WasmCall
deriving DecidableEq

namespace MouseVariant

/-- The host canvas as the mouse variant sees it. -/
structure Canvas : Type where
  ctx : CanvasCtx
  clientWidth : ℚ
  clientHeight : ℚ

/-- The boundary call issued by `render` (mouse variant, `main.ts` lines
47-52): `wasm.get_points(ctx, width, height, mouseX, mouseY, mouseDown)` with
`width = canvas.clientWidth` and `height = canvas.clientHeight`. -/
def renderCall (canvas : Canvas) (mouseX mouseY : ℚ) (mouseDown : Bool) :
    WasmCall :=
  let width := canvas.clientWidth
  let height := canvas.clientHeight
  WasmCall.getPointsMouse canvas.ctx width height mouseX mouseY mouseDown

/-- The fields of a DOM mouse event used by the wrapper. -/
structure MouseEvent : Type where
  offsetX : ℚ
  offsetY : ℚ
  buttons : ℕ

/-- The event handler of the mouse variant (`main.ts` lines 72-76):
`render(event.offsetX, event.offsetY, event.buttons === 1)`. -/
def handleMouseEvent (canvas : Canvas) (event : MouseEvent) : WasmCall :=
  renderCall canvas event.offsetX event.offsetY (event.buttons == 1)

end MouseVariant

namespace SliderVariant

/-- Canvas width constant of the slider variant (`main.ts` line 92). -/
def width : ℚ := 600

/-- Canvas height constant of the slider variant (`main.ts` line 93). -/
def height : ℚ := 600

/-- Current values of the three camera sliders. -/
structure Sliders : Type where
  xValue : ℚ
  yValue : ℚ
  zValue : ℚ

/-- The boundary call issued by `render` (slider variant, `main.ts` lines
146-156): `wasm.get_points(width, height, cameraXOffset, cameraYOffset,
cameraZOffset)` with the offsets read from the sliders. -/
def renderCall (sliders : Sliders) : WasmCall :=
  WasmCall.getPointsCamera width height sliders.xValue sliders.yValue
    sliders.zValue

end SliderVariant

/-!
The puzzle engine is not under `src/`; the following model of its data model
and operations is built from the spec (sections 3, 4.2, 4.3, 4.5), for the
claims about solving and commutators.
-/

/-- Modelled from the spec: the engine's Puzzle State (spec section 3) for a
family with `n` piece positions and rotational symmetry count `k`.
`pieceAt` sends each position index to the home index of the occupying piece
(a bijection, as the spec's invariant requires), and `orient` gives the
orientation, an integer mod `k`, of the piece at each position. -/
@[ext]
structure PState (n k : ℕ) : Type where
  pieceAt : Equiv.Perm (Fin n)
  orient : Fin n → ZMod k

/-- Modelled from the spec: a Move (spec section 3) permutes a subset of the
position indices and increments the orientation of each affected piece by a
fixed per-move delta. -/
@[ext]
structure PMove (n k : ℕ) : Type where
  perm : Equiv.Perm (Fin n)
  delta : Fin n → ZMod k

instance {n k : ℕ} : DecidableEq (PState n k) := fun s t =>
  decidable_of_iff (s.pieceAt = t.pieceAt ∧ s.orient = t.orient)
    (by constructor
        · rintro ⟨h1, h2⟩; exact PState.ext h1 h2
        · rintro rfl; exact ⟨rfl, rfl⟩)

instance {n k : ℕ} : DecidableEq (PMove n k) := fun s t =>
  decidable_of_iff (s.perm = t.perm ∧ s.delta = t.delta)
    (by constructor
        · rintro ⟨h1, h2⟩; exact PMove.ext h1 h2
        · rintro rfl; exact ⟨rfl, rfl⟩)

/-- Modelled from the spec: `apply_move` (spec section 4.2) is a pure state
transition; the piece that ends at position `x` came from `m.perm.symm x`,
and its orientation is incremented by the move's delta. -/
def applyMove {n k : ℕ} (m : PMove n k) (s : PState n k) : PState n k :=
  { pieceAt := m.perm.symm.trans s.pieceAt
    orient := fun x => s.orient (m.perm.symm x) + m.delta x }

/-- Modelled from the spec: applying a Move Sequence is left-to-right
composition (spec section 3, Move Sequence). -/
def applySeq {n k : ℕ} (seq : List (PMove n k)) (s : PState n k) : PState n k :=
  seq.foldl (fun t m => applyMove m t) s

/-- Modelled from the spec: the solved configuration, every piece at its home
position with orientation zero. -/
def solvedState (n k : ℕ) : PState n k :=
  { pieceAt := Equiv.refl (Fin n), orient := fun _ => 0 }

/-- Modelled from the spec: `is_solved` (spec section 4.2) is true iff every
piece's position index equals its home index and every orientation is zero. -/
def is_solved {n k : ℕ} (s : PState n k) : Bool :=
  decide (s.pieceAt = Equiv.refl (Fin n)) && decide (s.orient = fun _ => 0)

/-- Modelled from the spec: the inverse of a Move (spec section 3, Move
Sequence inversion) undoes its cyclic permutation and orientation deltas. -/
def invMove {n k : ℕ} (m : PMove n k) : PMove n k :=
  { perm := m.perm.symm
    delta := fun x => - m.delta (m.perm x) }

/-- Modelled from the spec: sequence inversion reverses the order and inverts
each Move (spec section 3, Move Sequence). -/
def invSeq {n k : ℕ} (seq : List (PMove n k)) : List (PMove n k) :=
  seq.reverse.map invMove

/-- Modelled from the spec: a state is reachable when some finite sequence of
legal moves produces it from the solved state. -/
def Reachable {n k : ℕ} (moves : List (PMove n k)) (s : PState n k) : Prop :=
  ∃ seq : List (PMove n k),
    (∀ m ∈ seq, m ∈ moves) ∧ applySeq seq (solvedState n k) = s

/-- All sequences over `moves` of length at most the bound, shortest first. -/
def seqsUpTo {n k : ℕ} (moves : List (PMove n k)) : ℕ → List (List (PMove n k))
  | 0 => [[]]
  | l + 1 => [] :: (moves.flatMap fun m => (seqsUpTo moves l).map fun seq => m :: seq)

/-- A puzzle state is its permutation paired with its orientation vector. -/
def stateEquiv (n k : ℕ) : PState n k ≃ Equiv.Perm (Fin n) × (Fin n → ZMod k) where
  toFun s := (s.pieceAt, s.orient)
  invFun p := { pieceAt := p.1, orient := p.2 }
  left_inv s := rfl
  right_inv p := rfl

instance {n k : ℕ} [NeZero k] : Fintype (PState n k) :=
  Fintype.ofEquiv _ (stateEquiv n k).symm

/-- Size of the state space, an upper bound for the solver's search depth. -/
def stateBound (n k : ℕ) [NeZero k] : ℕ :=
  Fintype.card (PState n k)

/-- Modelled from the spec: the Solver (spec sections 4.5 and 7).  The spec
fixes the contract — for every reachable state it must return a move sequence
driving the state to solved, the empty sequence on an already solved state,
and it must report failure (here `none`, the spec's `UnsolvableState`) rather
than diverge on unreachable states — while the phase decomposition itself is
family-specific.  We model the contract by a bounded exhaustive search over
legal move sequences, shortest first, with depth the size of the state
space. -/
def solve {n k : ℕ} [NeZero k] (moves : List (PMove n k)) (s : PState n k) :
    Option (List (PMove n k)) :=
  (seqsUpTo moves (stateBound n k)).find? fun seq => is_solved (applySeq seq s)

/-- The identity move: the net effect of the empty sequence. -/
def idMove (n k : ℕ) : PMove n k :=
  { perm := Equiv.refl (Fin n), delta := fun _ => 0 }

/-- Sequential composition of net effects: `compMove m1 m2` is the net effect
of performing `m1` and then `m2`. -/
def compMove {n k : ℕ} (m1 m2 : PMove n k) : PMove n k :=
  { perm := m1.perm.trans m2.perm
    delta := fun x => m1.delta (m2.perm.symm x) + m2.delta x }

/-- Modelled from the spec: the net effect (spec glossary) of a move
sequence, the permutation and orientation delta it induces. -/
def netEffect {n k : ℕ} (seq : List (PMove n k)) : PMove n k :=
  seq.foldl compMove (idMove n k)

/-- Position `x` is touched by the net effect `m`: its occupant changes or
its orientation is incremented. -/
def inSupp {n k : ℕ} (m : PMove n k) (x : Fin n) : Prop :=
  m.perm.symm x ≠ x ∨ m.delta x ≠ 0

instance {n k : ℕ} (m : PMove n k) (x : Fin n) : Decidable (inSupp m x) := by
  unfold inSupp; infer_instance

/-- Modelled from the spec: the full commutator pattern
`A, B, C, B⁻¹, C⁻¹, A⁻¹` (spec section 3, Commutator Pattern). -/
def commutatorSeq {n k : ℕ} (A B C : List (PMove n k)) : List (PMove n k) :=
  A ++ B ++ C ++ invSeq B ++ invSeq C ++ invSeq A

/-- The bare commutator part `B, C, B⁻¹, C⁻¹` whose support is the
orientation-correction target set of the precomputed pattern. -/
def commTarget {n k : ℕ} (B C : List (PMove n k)) : PMove n k :=
  netEffect (B ++ C ++ invSeq B ++ invSeq C)

/-- Sample move on a 2-position, symmetry-2 family: swap the two positions
and increment both orientations. -/
def demoMove : PMove 2 2 :=
  { perm := Equiv.swap 0 1, delta := fun _ => 1 }

/-- Sample scrambled state: one application of `demoMove` to solved. -/
def demoState : PState 2 2 :=
  applySeq [demoMove] (solvedState 2 2)

/-! ### Lemmas about the JavaScript read model -/

lemma jsGet_natCast (data : List ℚ) (m : ℕ) : jsGet data (m : ℚ) = data[m]? := by
  simp [jsGet, Rat.den_natCast, Rat.num_natCast, Int.toNat_natCast,
    Int.natCast_nonneg]

lemma jIter_natCast (m : ℕ) : jIter (JNum.num (m : ℚ)) = m := by
  rcases Nat.eq_zero_or_pos m with rfl | hm
  · simp [jIter]
  · have h : ¬ ((m : ℚ) ≤ 0) := by
      rw [not_le]
      exact_mod_cast hm
    simp [jIter, h, Int.ceil_natCast, Int.toNat_natCast]

/-! ### Reading back an encoded buffer -/

lemma flatPairs_length (l : List (ℚ × ℚ)) :
    (l.flatMap fun xy => [xy.1, xy.2]).length = 2 * l.length := by
  induction l with
  | nil => simp
  | cons xy rest ih =>
    simp only [List.flatMap_cons, List.length_append, List.length_cons, ih]
    simp
    omega

lemma flatPairs_getElem_fst (l : List (ℚ × ℚ)) (i : ℕ) :
    (l.flatMap fun xy => [xy.1, xy.2])[2 * i]? = (l[i]?).map Prod.fst := by
  induction l generalizing i with
  | nil => simp
  | cons xy rest ih =>
    cases i with
    | zero => simp
    | succ j =>
      rw [show 2 * (j + 1) = 2 * j + 1 + 1 from by ring]
      simpa [List.flatMap_cons] using ih j

lemma flatPairs_getElem_snd (l : List (ℚ × ℚ)) (i : ℕ) :
    (l.flatMap fun xy => [xy.1, xy.2])[2 * i + 1]? = (l[i]?).map Prod.snd := by
  induction l generalizing i with
  | nil => simp
  | cons xy rest ih =>
    cases i with
    | zero => simp
    | succ j =>
      rw [show 2 * (j + 1) + 1 = 2 * j + 1 + 1 + 1 from by ring]
      simpa [List.flatMap_cons] using ih j

lemma encodeRecord_length (r : PolyRecord) :
    (encodeRecord r).length = 2 + 2 * r.pts.length := by
  simp only [encodeRecord, List.length_cons, flatPairs_length]
  omega

lemma length_le_encode_length (rs : List PolyRecord) :
    rs.length ≤ (encode rs).length := by
  induction rs with
  | nil => simp [encode]
  | cons r rest ih =>
    have h := encodeRecord_length r
    simp only [encode, List.flatMap_cons, List.length_append, List.length_cons] at *
    omega

lemma encodeRecord_read (pre post : List ℚ) (r : PolyRecord) (t : ℕ) :
    (pre ++ (encodeRecord r ++ post))[pre.length + t]? = (encodeRecord r ++ post)[t]? := by
  rw [List.getElem?_append_right (Nat.le_add_right _ _)]
  congr 1
  omega

lemma recordPoints_at (pre post : List ℚ) (r : PolyRecord) :
    MouseVariant.recordPoints (pre ++ (encodeRecord r ++ post)) ((pre.length : ℚ))
        (JNum.num ((r.pts.length : ℚ)))
      = r.pts.map fun xy => (some xy.1, some xy.2) := by
  rw [MouseVariant.recordPoints, jIter_natCast]
  apply List.ext_getElem?
  intro j
  rw [List.getElem?_map, List.getElem?_map]
  rcases lt_or_le j r.pts.length with hj | hj
  · rw [List.getElem?_range hj]
    obtain ⟨xy, hxy⟩ : ∃ xy, r.pts[j]? = some xy :=
      ⟨_, List.getElem?_eq_getElem hj⟩
    rw [hxy]
    have h1 : jsGet (pre ++ (encodeRecord r ++ post))
        ((pre.length : ℚ) + 2 + (j : ℚ) * 2) = some xy.1 := by
      have hcast : ((pre.length : ℚ) + 2 + (j : ℚ) * 2)
          = ((pre.length + (2 + 2 * j) : ℕ) : ℚ) := by
        push_cast
        ring
      rw [hcast, jsGet_natCast, encodeRecord_read]
      rw [List.getElem?_append_left (by rw [encodeRecord_length]; omega)]
      rw [show 2 + 2 * j = 2 * j + 1 + 1 from by ring, encodeRecord,
        List.getElem?_cons_succ, List.getElem?_cons_succ,
        flatPairs_getElem_fst, hxy]
      rfl
    have h2 : jsGet (pre ++ (encodeRecord r ++ post))
        ((pre.length : ℚ) + 2 + (j : ℚ) * 2 + 1) = some xy.2 := by
      have hcast : ((pre.length : ℚ) + 2 + (j : ℚ) * 2 + 1)
          = ((pre.length + (2 + 2 * j + 1) : ℕ) : ℚ) := by
        push_cast
        ring
      rw [hcast, jsGet_natCast, encodeRecord_read]
      rw [List.getElem?_append_left (by rw [encodeRecord_length]; omega)]
      rw [show 2 + 2 * j + 1 = 2 * j + 1 + 1 + 1 from by ring, encodeRecord,
        List.getElem?_cons_succ, List.getElem?_cons_succ,
        flatPairs_getElem_snd, hxy]
      rfl
    simp only [Option.map_some']
    rw [h1, h2]
  · rw [List.getElem?_eq_none (by simpa using hj),
      List.getElem?_eq_none (by simpa using hj)]
    rfl

lemma unpackLoop_step (data : List ℚ) (fuel : ℕ) (p : ℚ) (acc : List Polygon)
    (h : p < (data.length : ℚ)) :
    MouseVariant.unpackLoop data (fuel + 1) (JNum.num p) acc
      = MouseVariant.unpackLoop data fuel (nextPi data p)
          ({ points := MouseVariant.recordPoints data p (toNum (jsGet data p)),
             color := MouseVariant.colorString (jsGet data (p + 1)) } :: acc) := by
  rw [MouseVariant.unpackLoop, if_pos h]
  rfl

lemma unpackLoop_stop (data : List ℚ) (fuel : ℕ) (p : ℚ) (acc : List Polygon)
    (h : ¬ p < (data.length : ℚ)) :
    MouseVariant.unpackLoop data (fuel + 1) (JNum.num p) acc = some acc.reverse := by
  rw [MouseVariant.unpackLoop, if_neg h]

lemma unpackLoop_encode (rs : List PolyRecord) :
    ∀ (pre : List ℚ) (fuel : ℕ) (acc : List Polygon), rs.length < fuel →
      MouseVariant.unpackLoop (pre ++ encode rs) fuel (JNum.num ((pre.length : ℚ))) acc
        = some (acc.reverse ++ rs.map polyOfRecord) := by
  induction rs with
  | nil =>
    rintro pre (_ | fuel) acc hfuel
    · omega
    · rw [unpackLoop_stop _ _ _ _ (by simp [encode])]
      simp
  | cons r rest ih =>
    rintro pre (_ | fuel) acc hfuel
    · omega
    · rw [show encode (r :: rest) = encodeRecord r ++ encode rest from by
        simp [encode]]
      have hguard : (pre.length : ℚ)
          < (((pre ++ (encodeRecord r ++ encode rest)).length : ℕ) : ℚ) := by
        rw [Nat.cast_lt]
        have h := encodeRecord_length r
        simp only [List.length_append]
        omega
      rw [unpackLoop_step _ _ _ _ hguard]
      have hnum : jsGet (pre ++ (encodeRecord r ++ encode rest)) ((pre.length : ℚ))
          = some ((r.pts.length : ℚ)) := by
        have h0 : pre.length = pre.length + 0 := by omega
        rw [jsGet_natCast, h0, encodeRecord_read]
        rw [List.getElem?_append_left (by rw [encodeRecord_length]; omega)]
        rw [encodeRecord, List.getElem?_cons_zero]
      have hcolor : jsGet (pre ++ (encodeRecord r ++ encode rest))
          ((pre.length : ℚ) + 1) = some r.color := by
        rw [show ((pre.length : ℚ) + 1) = ((pre.length + 1 : ℕ) : ℚ) from by
          push_cast; ring]
        rw [jsGet_natCast, encodeRecord_read]
        rw [List.getElem?_append_left (by rw [encodeRecord_length]; omega)]
        rw [encodeRecord, List.getElem?_cons_succ, List.getElem?_cons_zero]
      have hpi : nextPi (pre ++ (encodeRecord r ++ encode rest)) ((pre.length : ℚ))
          = JNum.num (((pre ++ encodeRecord r).length : ℕ) : ℚ) := by
        rw [nextPi, hnum]
        simp only [toNum, jadd, jmul, List.length_append, encodeRecord_length]
        congr 1
        push_cast
        ring
      rw [hpi, hnum]
      simp only [toNum]
      rw [recordPoints_at, hcolor]
      rw [show pre ++ (encodeRecord r ++ encode rest)
          = (pre ++ encodeRecord r) ++ encode rest from by
        rw [List.append_assoc]]
      exact (ih (pre ++ encodeRecord r) fuel (polyOfRecord r :: acc)
        (by simp only [List.length_cons] at hfuel; omega)).trans (by simp)

lemma unpackData_encode_eq (rs : List PolyRecord) :
    MouseVariant.unpackData (encode rs) = some (rs.map polyOfRecord) := by
  have h := unpackLoop_encode rs [] ((encode rs).length + 1) []
    (by have := length_le_encode_length rs; omega)
  simpa [MouseVariant.unpackData] using h

/-- Claim C1: for every buffer that is a concatenation of well-formed records
`[pointCount, packedColor, x1, y1, ..., x_pointCount, y_pointCount]` with
nonnegative-integer point counts, `unpackData` consumes the whole buffer and
returns exactly one polygon per record, in record order, whose points are that
record's `pointCount` consecutive coordinate pairs in buffer order. -/
theorem unpackData_wellFormed_exact (rs : List PolyRecord) :
    MouseVariant.unpackData (encode rs) = some (rs.map polyOfRecord) :=
  unpackData_encode_eq rs

/-! ### Decoding the packed 24-bit color -/

lemma nat_shiftRight_and (a b s : ℕ) :
    (a &&& b) >>> s = (a >>> s) &&& (b >>> s) := by
  apply Nat.eq_of_testBit_eq
  intro i
  simp [Nat.testBit_shiftRight, Nat.testBit_and]

lemma toInt32u_natCast (c : ℕ) (h : c < 4294967296) :
    toInt32u (some ((c : ℚ))) = c := by
  simp only [toInt32u, ratTrunc]
  rw [if_pos (by positivity), Int.floor_natCast,
    Int.emod_eq_of_lt (Int.natCast_nonneg c) (by exact_mod_cast h),
    Int.toNat_natCast]

lemma colorString_nat (c : ℕ) (h : c < 2 ^ 24) :
    MouseVariant.colorString (some ((c : ℚ)))
      = "rgb(" ++ toString (c / 65536) ++ ", " ++ toString (c / 256 % 256)
          ++ ", " ++ toString (c % 256) ++ ")" := by
  have h32 : c < 4294967296 := by
    have h24 : (2 : ℕ) ^ 24 = 16777216 := by norm_num
    omega
  have hred : (c &&& 0xff0000) >>> 16 = c / 65536 := by
    rw [nat_shiftRight_and,
      show (0xff0000 : ℕ) >>> 16 = 2 ^ 8 - 1 from by decide,
      Nat.and_pow_two_sub_one_eq_mod, Nat.shiftRight_eq_div_pow]
    have hlt : c / 2 ^ 16 < 2 ^ 8 := by
      have h24 : (2 : ℕ) ^ 24 = 16777216 := by norm_num
      have h16 : (2 : ℕ) ^ 16 = 65536 := by norm_num
      have h8 : (2 : ℕ) ^ 8 = 256 := by norm_num
      omega
    rw [Nat.mod_eq_of_lt hlt, show (2 : ℕ) ^ 16 = 65536 from by norm_num]
  have hgreen : (c &&& 0x00ff00) >>> 8 = c / 256 % 256 := by
    rw [nat_shiftRight_and,
      show (0x00ff00 : ℕ) >>> 8 = 2 ^ 8 - 1 from by decide,
      Nat.and_pow_two_sub_one_eq_mod, Nat.shiftRight_eq_div_pow,
      show (2 : ℕ) ^ 8 = 256 from by norm_num]
  have hblue : c &&& 0x0000ff = c % 256 := by
    rw [show (0x0000ff : ℕ) = 2 ^ 8 - 1 from by norm_num,
      Nat.and_pow_two_sub_one_eq_mod,
      show (2 : ℕ) ^ 8 = 256 from by norm_num]
  simp only [MouseVariant.colorString]
  rw [toInt32u_natCast c h32, hred, hgreen, hblue]

/-- Claim C5: a record whose `packedColor` field is an integer `c` in
`[0, 2^24)` is decoded by `unpackData` into the color string `rgb(r, g, b)`
with `r = c / 65536`, `g = c / 256 % 256`, `b = c % 256`, each channel lying
in `[0, 256)` and reassembling to `c`. -/
theorem unpackData_color_decode (c : ℕ) (pts : List (ℚ × ℚ)) (h : c < 2 ^ 24) :
    MouseVariant.unpackData (encode [{ color := ((c : ℚ)), pts := pts }])
      = some [{ points := pts.map fun xy => (some xy.1, some xy.2),
                color := "rgb(" ++ toString (c / 65536) ++ ", "
                  ++ toString (c / 256 % 256) ++ ", " ++ toString (c % 256) ++ ")" }]
    ∧ c / 65536 < 256 ∧ c / 256 % 256 < 256 ∧ c % 256 < 256
    ∧ c = c / 65536 * 65536 + c / 256 % 256 * 256 + c % 256 := by
  have h24 : (2 : ℕ) ^ 24 = 16777216 := by norm_num
  refine ⟨?_, by omega, by omega, by omega, by omega⟩
  rw [unpackData_encode_eq]
  simp only [List.map_cons, List.map_nil, polyOfRecord]
  rw [colorString_nat c h]

/-- Claim C5 witness: the decoding at the concrete color `0x010203`. -/
theorem unpackData_color_decode_witness :
    (66051 < 2 ^ 24)
    ∧ (MouseVariant.unpackData (encode [{ color := (((66051 : ℕ) : ℚ)), pts := [((7 : ℚ), (8 : ℚ))] }])
        = some [{ points := [((7 : ℚ), (8 : ℚ))].map fun xy => (some xy.1, some xy.2),
                  color := "rgb(" ++ toString (66051 / 65536) ++ ", "
                    ++ toString (66051 / 256 % 256) ++ ", " ++ toString (66051 % 256) ++ ")" }]
      ∧ 66051 / 65536 < 256 ∧ 66051 / 256 % 256 < 256 ∧ 66051 % 256 < 256
      ∧ 66051 = 66051 / 65536 * 65536 + 66051 / 256 % 256 * 256 + 66051 % 256) :=
  ⟨by norm_num, unpackData_color_decode 66051 [(7, 8)] (by norm_num)⟩

/-- Claim C4: round-trip of the wire format.  Serializing any polygon list
with nonnegative-integer point counts and colors in `[0, 2^24)` according to
the record layout and then applying `unpackData` returns the same polygons,
with each color decoded into its RGB channels. -/
theorem unpackData_roundTrip (rs : List (ℕ × List (ℚ × ℚ)))
    (h : ∀ r ∈ rs, r.1 < 2 ^ 24) :
    MouseVariant.unpackData
        (encode (rs.map fun r => { color := ((r.1 : ℚ)), pts := r.2 }))
      = some (rs.map fun r =>
          { points := r.2.map fun xy => (some xy.1, some xy.2),
            color := "rgb(" ++ toString (r.1 / 65536) ++ ", "
              ++ toString (r.1 / 256 % 256) ++ ", " ++ toString (r.1 % 256) ++ ")" }) := by
  rw [unpackData_encode_eq]
  refine congrArg some ?_
  rw [List.map_map]
  apply List.map_congr_left
  intro r hr
  simp only [Function.comp, polyOfRecord]
  rw [colorString_nat r.1 (h r hr)]

/-- Claim C4 witness: the round-trip at a concrete two-record polygon list. -/
theorem unpackData_roundTrip_witness :
    (∀ r ∈ [((66051 : ℕ), [((1 : ℚ), (2 : ℚ)), ((3 : ℚ), (4 : ℚ))]), ((16777215 : ℕ), ([] : List (ℚ × ℚ)))], r.1 < 2 ^ 24)
    ∧ MouseVariant.unpackData
        (encode (([((66051 : ℕ), [((1 : ℚ), (2 : ℚ)), ((3 : ℚ), (4 : ℚ))]), ((16777215 : ℕ), ([] : List (ℚ × ℚ)))]).map
          fun r => { color := ((r.1 : ℚ)), pts := r.2 }))
      = some (([((66051 : ℕ), [((1 : ℚ), (2 : ℚ)), ((3 : ℚ), (4 : ℚ))]), ((16777215 : ℕ), ([] : List (ℚ × ℚ)))]).map
          fun r =>
          { points := r.2.map fun xy => (some xy.1, some xy.2),
            color := "rgb(" ++ toString (r.1 / 65536) ++ ", "
              ++ toString (r.1 / 256 % 256) ++ ", " ++ toString (r.1 % 256) ++ ")" }) :=
  ⟨by decide, unpackData_roundTrip _ (by decide)⟩

/-! ### The instrumented run agrees with the pure one and never writes -/

lemma pointsStAux_arr (p : ℚ) : ∀ (cnt i : ℕ) (st : List ℚ × List ℚ),
    (pointsStAux p i cnt st).2.1 = st.1 := by
  intro cnt
  induction cnt with
  | zero => intro i st; rfl
  | succ c ih =>
    intro i st
    simp only [pointsStAux, readArr]
    exact ih (i + 1) _

lemma unpackLoopSt_arr : ∀ (fuel : ℕ) (st : List ℚ × List ℚ) (pi : JNum)
    (acc : List Polygon), (unpackLoopSt fuel st pi acc).2.1 = st.1 := by
  intro fuel
  induction fuel with
  | zero => intro st pi acc; rfl
  | succ f ih =>
    intro st pi acc
    cases pi with
    | nan => rfl
    | num p =>
      simp only [unpackLoopSt, readArr]
      split
      · rw [ih, pointsStAux_arr]
      · rfl

lemma pointsStAux_points (arr : List ℚ) (p : ℚ) :
    ∀ (cnt i : ℕ) (rds : List ℚ),
      (pointsStAux p i cnt (arr, rds)).1
        = (List.range cnt).map fun (j : ℕ) =>
            (jsGet arr (p + 2 + ((i + j : ℕ) : ℚ) * 2),
             jsGet arr (p + 2 + ((i + j : ℕ) : ℚ) * 2 + 1)) := by
  intro cnt
  induction cnt with
  | zero => intro i rds; rfl
  | succ c ih =>
    intro i rds
    simp only [pointsStAux, readArr]
    rw [List.range_succ_eq_map, List.map_cons, List.map_map, ih (i + 1)]
    refine congrArg₂ List.cons ?_ ?_
    · norm_num
    · apply List.map_congr_left
      intro j hj
      have e : i + 1 + j = i + (j + 1) := by omega
      simp only [Function.comp, e]

lemma pointsStAux_points_zero (arr : List ℚ) (p : ℚ) (cnt : ℕ) (rds : List ℚ) :
    (pointsStAux p 0 cnt (arr, rds)).1
      = (List.range cnt).map fun (j : ℕ) =>
          (jsGet arr (p + 2 + (j : ℚ) * 2), jsGet arr (p + 2 + (j : ℚ) * 2 + 1)) := by
  rw [pointsStAux_points]
  apply List.map_congr_left
  intro j hj
  norm_num

lemma unpackLoopSt_fst : ∀ (fuel : ℕ) (st : List ℚ × List ℚ) (pi : JNum)
    (acc : List Polygon),
    (unpackLoopSt fuel st pi acc).1 = MouseVariant.unpackLoop st.1 fuel pi acc := by
  intro fuel
  induction fuel with
  | zero => intro st pi acc; rfl
  | succ f ih =>
    intro st pi acc
    cases pi with
    | nan => rfl
    | num p =>
      simp only [unpackLoopSt, MouseVariant.unpackLoop, readArr]
      split
      · rw [ih, pointsStAux_arr, pointsStAux_points_zero, MouseVariant.recordPoints]
      · rfl

lemma unpackDataSt_arr (data : List ℚ) : (unpackDataSt data).2.1 = data := by
  rw [unpackDataSt, unpackLoopSt_arr]

lemma unpackDataSt_fst (data : List ℚ) :
    (unpackDataSt data).1 = MouseVariant.unpackData data := by
  rw [unpackDataSt, unpackLoopSt_fst]
  rfl

/-- Claim C10: `unpackData` is deterministic and effect-free on its input:
equal input buffers give equal polygon lists, and the instrumented run (which
threads the array through every access) leaves the array contents unchanged
and agrees with the pure function. -/
theorem unpackData_pure (d1 d2 : List ℚ) (h : d1 = d2) :
    MouseVariant.unpackData d1 = MouseVariant.unpackData d2
    ∧ (unpackDataSt d1).2.1 = d1
    ∧ (unpackDataSt d1).1 = MouseVariant.unpackData d1 := by
  subst h
  exact ⟨rfl, unpackDataSt_arr d1, unpackDataSt_fst d1⟩

/-- Claim C10 witness: the purity facts at a concrete buffer. -/
theorem unpackData_pure_witness :
    ([(1 : ℚ), 5, 2, 3] = [(1 : ℚ), 5, 2, 3])
    ∧ (MouseVariant.unpackData [(1 : ℚ), 5, 2, 3]
        = MouseVariant.unpackData [(1 : ℚ), 5, 2, 3]
      ∧ (unpackDataSt [(1 : ℚ), 5, 2, 3]).2.1 = [(1 : ℚ), 5, 2, 3]
      ∧ (unpackDataSt [(1 : ℚ), 5, 2, 3]).1
          = MouseVariant.unpackData [(1 : ℚ), 5, 2, 3]) :=
  ⟨rfl, unpackData_pure _ _ rfl⟩

/-! ### Behavior on a truncated record -/

lemma unpackData_truncated_eq (n : ℕ) (h : 1 ≤ n) :
    MouseVariant.unpackData [((n : ℚ))]
      = some [{ points := List.replicate n ((none : Option ℚ), (none : Option ℚ)),
                color := "rgb(0, 0, 0)" }] := by
  have hguard : (0 : ℚ) < (([((n : ℚ))].length : ℕ) : ℚ) := by norm_num
  rw [MouseVariant.unpackData, unpackLoop_step _ _ _ _ hguard]
  have hn : jsGet [((n : ℚ))] 0 = some ((n : ℚ)) := by
    rw [show (0 : ℚ) = ((0 : ℕ) : ℚ) from by norm_num, jsGet_natCast]
    rfl
  have hcolor : jsGet [((n : ℚ))] (0 + 1) = none := by
    rw [show ((0 : ℚ) + 1) = ((1 : ℕ) : ℚ) from by norm_num, jsGet_natCast]
    rfl
  have hpts : MouseVariant.recordPoints [((n : ℚ))] 0 (toNum (jsGet [((n : ℚ))] 0))
      = List.replicate n ((none : Option ℚ), (none : Option ℚ)) := by
    rw [hn]
    simp only [toNum]
    rw [MouseVariant.recordPoints, jIter_natCast]
    have hall : ∀ i ∈ List.range n,
        ((jsGet [((n : ℚ))] (0 + 2 + (i : ℚ) * 2),
          jsGet [((n : ℚ))] (0 + 2 + (i : ℚ) * 2 + 1)) : Option ℚ × Option ℚ)
          = (none, none) := by
      intro i hi
      have h1 : jsGet [((n : ℚ))] (0 + 2 + (i : ℚ) * 2) = none := by
        rw [show ((0 : ℚ) + 2 + (i : ℚ) * 2) = ((2 + 2 * i : ℕ) : ℚ) from by
          push_cast; ring, jsGet_natCast]
        exact List.getElem?_eq_none (by simp only [List.length_cons, List.length_nil]; omega)
      have h2 : jsGet [((n : ℚ))] (0 + 2 + (i : ℚ) * 2 + 1) = none := by
        rw [show ((0 : ℚ) + 2 + (i : ℚ) * 2 + 1) = ((2 + 2 * i + 1 : ℕ) : ℚ) from by
          push_cast; ring, jsGet_natCast]
        exact List.getElem?_eq_none (by simp only [List.length_cons, List.length_nil]; omega)
      rw [h1, h2]
    rw [List.map_congr_left hall, List.map_const', List.length_range]
  rw [hpts, hcolor, nextPi, hn]
  simp only [toNum, jadd, jmul]
  rw [show MouseVariant.colorString none = "rgb(0, 0, 0)" from rfl]
  have hstop : ¬ ((0 : ℚ) + (2 + (n : ℚ) * 2) < (([((n : ℚ))].length : ℕ) : ℚ)) := by
    rw [not_lt]
    simp only [List.length_cons, List.length_nil]
    have hn0 : (0 : ℚ) ≤ (n : ℚ) := Nat.cast_nonneg n
    push_cast
    linarith
  rw [show List.length [((n : ℚ))] = 0 + 1 from rfl, unpackLoop_stop _ _ _ _ hstop]
  rfl

lemma pointsStAux_reads_mono (p : ℚ) : ∀ (cnt i : ℕ) (st : List ℚ × List ℚ),
    ∃ suf : List ℚ, (pointsStAux p i cnt st).2.2 = st.2 ++ suf := by
  intro cnt
  induction cnt with
  | zero => intro i st; exact ⟨[], by simp [pointsStAux]⟩
  | succ c ih =>
    intro i st
    simp only [pointsStAux, readArr]
    obtain ⟨suf, hsuf⟩ := ih (i + 1)
      (st.1, st.2 ++ [p + 2 + (i : ℚ) * 2, p + 2 + (i : ℚ) * 2 + 1])
    refine ⟨[p + 2 + (i : ℚ) * 2, p + 2 + (i : ℚ) * 2 + 1] ++ suf, ?_⟩
    rw [hsuf]
    simp

lemma unpackLoopSt_reads_mono : ∀ (fuel : ℕ) (st : List ℚ × List ℚ) (pi : JNum)
    (acc : List Polygon),
    ∃ suf : List ℚ, (unpackLoopSt fuel st pi acc).2.2 = st.2 ++ suf := by
  intro fuel
  induction fuel with
  | zero => intro st pi acc; exact ⟨[], by simp [unpackLoopSt]⟩
  | succ f ih =>
    intro st pi acc
    cases pi with
    | nan => exact ⟨[], by simp [unpackLoopSt]⟩
    | num p =>
      simp only [unpackLoopSt, readArr]
      split
      · obtain ⟨suf1, hsuf1⟩ := pointsStAux_reads_mono p
          (jIter (toNum (jsGet st.1 p))) 0 (st.1, st.2 ++ [p, p + 1])
        obtain ⟨suf2, hsuf2⟩ := ih
          (pointsStAux p 0 (jIter (toNum (jsGet st.1 p))) (st.1, st.2 ++ [p, p + 1])).2
          (jadd (JNum.num p) (jadd (JNum.num 2) (jmul (toNum (jsGet st.1 p)) (JNum.num 2))))
          ({ points := (pointsStAux p 0 (jIter (toNum (jsGet st.1 p))) (st.1, st.2 ++ [p, p + 1])).1,
             color := MouseVariant.colorString (jsGet st.1 (p + 1)) } :: acc)
        refine ⟨([p, p + 1] ++ suf1) ++ suf2, ?_⟩
        rw [hsuf2, hsuf1]
        simp
      · exact ⟨[], by simp⟩

lemma unpackLoopSt_step (fuel : ℕ) (st : List ℚ × List ℚ) (p : ℚ)
    (acc : List Polygon) (h : p < (st.1.length : ℚ)) :
    unpackLoopSt (fuel + 1) st (JNum.num p) acc
      = unpackLoopSt fuel
          (pointsStAux p 0 (jIter (toNum (jsGet st.1 p))) (st.1, st.2 ++ [p, p + 1])).2
          (jadd (JNum.num p) (jadd (JNum.num 2) (jmul (toNum (jsGet st.1 p)) (JNum.num 2))))
          ({ points := (pointsStAux p 0 (jIter (toNum (jsGet st.1 p))) (st.1, st.2 ++ [p, p + 1])).1,
             color := MouseVariant.colorString (jsGet st.1 (p + 1)) } :: acc) := by
  rw [unpackLoopSt, if_pos h]
  rfl

lemma unpackLoopSt_step_reads (fuel : ℕ) (st : List ℚ × List ℚ) (p : ℚ)
    (acc : List Polygon) (h : p < (st.1.length : ℚ)) :
    ∃ suf : List ℚ,
      (unpackLoopSt (fuel + 1) st (JNum.num p) acc).2.2 = st.2 ++ ([p, p + 1] ++ suf) := by
  rw [unpackLoopSt_step fuel st p acc h]
  obtain ⟨suf2, hsuf2⟩ := unpackLoopSt_reads_mono fuel
    (pointsStAux p 0 (jIter (toNum (jsGet st.1 p))) (st.1, st.2 ++ [p, p + 1])).2
    (jadd (JNum.num p) (jadd (JNum.num 2) (jmul (toNum (jsGet st.1 p)) (JNum.num 2))))
    ({ points := (pointsStAux p 0 (jIter (toNum (jsGet st.1 p))) (st.1, st.2 ++ [p, p + 1])).1,
       color := MouseVariant.colorString (jsGet st.1 (p + 1)) } :: acc)
  obtain ⟨suf1, hsuf1⟩ := pointsStAux_reads_mono p (jIter (toNum (jsGet st.1 p))) 0
    (st.1, st.2 ++ [p, p + 1])
  refine ⟨suf1 ++ suf2, ?_⟩
  rw [hsuf2, hsuf1]
  simp

lemma unpackDataSt_reads_head (n : ℕ) :
    (1 : ℚ) ∈ (unpackDataSt [((n : ℚ))]).2.2 := by
  rw [unpackDataSt]
  obtain ⟨suf, hsuf⟩ := unpackLoopSt_step_reads (List.length [((n : ℚ))])
    ([((n : ℚ))], []) 0 [] (by simp)
  rw [hsuf]
  simp

/-- Claim C2, amended: on a record whose `pointCount` implies points beyond
the remaining buffer, `unpackData` does not abort the record; it indexes the
array out of bounds, JavaScript yields `undefined` for those reads, and the
record is emitted in full with `undefined` coordinate pairs and with the
`undefined` color decoding to `rgb(0, 0, 0)`; here for the buffer consisting
of the single truncated record `[n]`, whose instrumented run reads position 1,
not below the buffer length 1. -/
theorem unpackData_truncated_record (n : ℕ) (h : 1 ≤ n) :
    MouseVariant.unpackData [((n : ℚ))]
      = some [{ points := List.replicate n ((none : Option ℚ), (none : Option ℚ)),
                color := "rgb(0, 0, 0)" }]
    ∧ (1 : ℚ) ∈ (unpackDataSt [((n : ℚ))]).2.2
    ∧ ¬ ((1 : ℚ) < (([((n : ℚ))].length : ℕ) : ℚ)) :=
  ⟨unpackData_truncated_eq n h, unpackDataSt_reads_head n, by simp⟩

/-- Claim C2 amended-theorem witness: the truncated record `[5]`. -/
theorem unpackData_truncated_record_witness :
    (1 ≤ 5)
    ∧ (MouseVariant.unpackData [((5 : ℕ) : ℚ)]
        = some [{ points := List.replicate 5 ((none : Option ℚ), (none : Option ℚ)),
                  color := "rgb(0, 0, 0)" }]
      ∧ (1 : ℚ) ∈ (unpackDataSt [((5 : ℕ) : ℚ)]).2.2
      ∧ ¬ ((1 : ℚ) < (([((5 : ℕ) : ℚ)].length : ℕ) : ℚ))) :=
  ⟨by norm_num, unpackData_truncated_record 5 (by norm_num)⟩

/-- Claim C2 counterexample: on the buffer `[5]` — a record whose point count
implies points beyond the buffer — `unpackData` does not abort the record (it
returns the full five-point polygon with `undefined` coordinates), and the
instrumented run reads index 1, which is not below the buffer length: the
consumer does index the input at positions at and beyond its length. -/
theorem unpackData_oob_read_cex :
    MouseVariant.unpackData [((5 : ℕ) : ℚ)]
      = some [{ points := List.replicate 5 ((none : Option ℚ), (none : Option ℚ)),
                color := "rgb(0, 0, 0)" }]
    ∧ ((1 : ℚ) ∈ (unpackDataSt [((5 : ℕ) : ℚ)]).2.2)
    ∧ ¬ ((1 : ℚ) < (([((5 : ℕ) : ℚ)].length : ℕ) : ℚ)) :=
  ⟨unpackData_truncated_eq 5 (by norm_num), unpackDataSt_reads_head 5, by simp⟩

/-! ### The two wrapper variants and the boundary calls -/

lemma unpackLoop_variants_eq (data : List ℚ) : ∀ (fuel : ℕ) (pi : JNum)
    (acc : List Polygon),
    MouseVariant.unpackLoop data fuel pi acc
      = SliderVariant.unpackLoop data fuel pi acc := by
  intro fuel
  induction fuel with
  | zero => intro pi acc; rfl
  | succ f ih =>
    intro pi acc
    cases pi with
    | nan => rfl
    | num p =>
      by_cases h : p < (data.length : ℚ)
      · simp only [MouseVariant.unpackLoop, SliderVariant.unpackLoop, if_pos h]
        exact ih _ _
      · simp only [MouseVariant.unpackLoop, SliderVariant.unpackLoop, if_neg h]

/-- Claim C9: the two textually identical copies of `unpackData` in the two
wrapper variants compute the same function on every input buffer. -/
theorem unpackData_variants_agree (data : List ℚ) :
    MouseVariant.unpackData data = SliderVariant.unpackData data := by
  rw [MouseVariant.unpackData, SliderVariant.unpackData, unpackLoop_variants_eq]

/-- Claim C7: the mouse-driven wrapper calls `get_points` with the canvas
context handle, the canvas dimensions, the pointer coordinates and a flag
that is true exactly when the event's primary button is pressed
(`buttons === 1`); the slider-driven wrapper calls `get_points` with its
fixed 600x600 canvas size and the three slider values as camera offsets. -/
theorem wrapper_boundary_calls (canvas : MouseVariant.Canvas)
    (event : MouseVariant.MouseEvent) (sliders : SliderVariant.Sliders) :
    MouseVariant.handleMouseEvent canvas event
      = WasmCall.getPointsMouse canvas.ctx canvas.clientWidth canvas.clientHeight
          event.offsetX event.offsetY (event.buttons == 1)
    ∧ ((event.buttons == 1) = true ↔ event.buttons = 1)
    ∧ SliderVariant.renderCall sliders
      = WasmCall.getPointsCamera 600 600 sliders.xValue sliders.yValue
          sliders.zValue :=
  ⟨rfl, by simp, rfl⟩

/-! ### Termination of the parse loop under nonnegative point counts -/

lemma unpackLoop_mono (data : List ℚ) : ∀ (f1 f2 : ℕ) (pi : JNum)
    (acc r : List Polygon),
    MouseVariant.unpackLoop data f1 pi acc = some r → f1 ≤ f2 →
    MouseVariant.unpackLoop data f2 pi acc = some r := by
  intro f1
  induction f1 with
  | zero =>
    intro f2 pi acc r h hf
    simp [MouseVariant.unpackLoop] at h
  | succ f ih =>
    intro f2 pi acc r h hf
    match f2, hf with
    | g + 1, _ =>
      cases pi with
      | nan => exact h
      | num p =>
        by_cases hg : p < (data.length : ℚ)
        · rw [unpackLoop_step _ _ _ _ hg] at h
          rw [unpackLoop_step _ _ _ _ hg]
          exact ih g _ _ r h (by omega)
        · rw [unpackLoop_stop _ _ _ _ hg] at h
          rw [unpackLoop_stop _ _ _ _ hg]
          exact h

lemma startsNonneg_terminates (data : List ℚ) : ∀ (fuel : ℕ) (pi : JNum)
    (acc : List Polygon),
    startsNonneg data fuel pi = true →
    (∀ p : ℚ, pi = JNum.num p → (data.length : ℚ) ≤ p + 2 * (fuel : ℚ) - 2) →
    ∃ polys, MouseVariant.unpackLoop data fuel pi acc = some polys := by
  intro fuel
  induction fuel with
  | zero =>
    intro pi acc h hb
    simp [startsNonneg] at h
  | succ f ih =>
    intro pi acc h hb
    cases pi with
    | nan => exact ⟨acc.reverse, rfl⟩
    | num p =>
      by_cases hg : p < (data.length : ℚ)
      · rw [startsNonneg, if_pos hg, Bool.and_eq_true] at h
        obtain ⟨hok, hrec⟩ := h
        rw [unpackLoop_step _ _ _ _ hg]
        cases hjs : jsGet data p with
        | none =>
          have hn : nextPi data p = JNum.nan := by
            rw [nextPi, hjs]
            rfl
          rw [hn]
          rw [hn] at hrec
          match f, hrec with
          | f1 + 1, _ => exact ⟨_, rfl⟩
        | some v =>
          rw [hjs] at hok
          have hv : (0 : ℚ) ≤ v := by simpa using hok
          have hn : nextPi data p = JNum.num (p + (2 + v * 2)) := by
            rw [nextPi, hjs]
            rfl
          rw [hn]
          rw [hn] at hrec
          apply ih _ _ hrec
          intro q hq
          have hq' : q = p + (2 + v * 2) := by
            injection hq with h0
            exact h0.symm
          subst hq'
          have hb' := hb p rfl
          push_cast at hb' ⊢
          linarith
      · rw [unpackLoop_stop _ _ _ _ hg]
        exact ⟨_, rfl⟩

/-- Claim C8: `unpackData` terminates on every finite buffer whose record
walk meets only nonnegative point counts: the index advances by at least 2
per completed record (or becomes NaN and stops the loop), so fuel
`length / 2 + 2` — one guard check more than `ceil(length / 2)` iterations —
already suffices, and the fuel of `unpackData` itself gives the same
polygons. -/
theorem unpackData_terminates (data : List ℚ)
    (h : startsNonneg data (data.length / 2 + 2) (JNum.num 0) = true) :
    ∃ polys, MouseVariant.unpackLoop data (data.length / 2 + 2) (JNum.num 0) []
        = some polys
      ∧ MouseVariant.unpackData data = some polys := by
  rcases data with _ | ⟨d, ds⟩
  · refine ⟨[], ?_, ?_⟩
    · rw [show List.length ([] : List ℚ) / 2 + 2 = 1 + 1 from rfl,
        unpackLoop_stop _ _ _ _ (by simp)]
      rfl
    · rw [MouseVariant.unpackData,
        show List.length ([] : List ℚ) + 1 = 0 + 1 from rfl,
        unpackLoop_stop _ _ _ _ (by simp)]
      rfl
  · have hbound : ∀ p : ℚ, JNum.num 0 = JNum.num p →
        (((d :: ds).length : ℕ) : ℚ)
          ≤ p + 2 * (((d :: ds).length / 2 + 2 : ℕ) : ℚ) - 2 := by
      intro p hp0
      have h0 : p = 0 := by
        injection hp0 with h0
        exact h0.symm
      subst h0
      have hlen : ((d :: ds).length : ℚ)
          ≤ 2 * (((d :: ds).length / 2 : ℕ) : ℚ) + 2 := by
        have hq : (d :: ds).length ≤ 2 * ((d :: ds).length / 2) + 2 := by omega
        exact_mod_cast hq
      push_cast at hlen ⊢
      linarith
    obtain ⟨polys, hp⟩ := startsNonneg_terminates (d :: ds)
      ((d :: ds).length / 2 + 2) (JNum.num 0) [] h hbound
    refine ⟨polys, hp, ?_⟩
    rw [MouseVariant.unpackData]
    exact unpackLoop_mono _ _ _ _ _ _ hp
      (by simp only [List.length_cons]; omega)

/-- Claim C8 witness: the walk precondition holds on the concrete buffer
`[0, 7]` (one record with zero points), and the loop terminates there within
the claimed fuel. -/
theorem unpackData_terminates_witness :
    (startsNonneg [(0 : ℚ), 7] (List.length [(0 : ℚ), 7] / 2 + 2)
        (JNum.num 0) = true)
    ∧ ∃ polys,
        MouseVariant.unpackLoop [(0 : ℚ), 7]
            (List.length [(0 : ℚ), 7] / 2 + 2) (JNum.num 0) [] = some polys
          ∧ MouseVariant.unpackData [(0 : ℚ), 7] = some polys := by
  have hjs0 : jsGet [(0 : ℚ), 7] 0 = some 0 := by
    rw [show (0 : ℚ) = ((0 : ℕ) : ℚ) from by norm_num, jsGet_natCast]
    rfl
  have hnext : nextPi [(0 : ℚ), 7] 0 = JNum.num (0 + (2 + 0 * 2)) := by
    rw [nextPi, hjs0]
    rfl
  have h2 : (0 : ℚ) + (2 + 0 * 2) = 2 := by norm_num
  have hchk : startsNonneg [(0 : ℚ), 7] (List.length [(0 : ℚ), 7] / 2 + 2)
      (JNum.num 0) = true := by
    rw [show List.length [(0 : ℚ), 7] / 2 + 2 = 2 + 1 from rfl, startsNonneg,
      if_pos (by simp), hjs0, hnext, h2,
      show (2 : ℕ) = 1 + 1 from rfl, startsNonneg,
      if_neg (by simp)]
    rfl
  exact ⟨hchk, unpackData_terminates [(0 : ℚ), 7] hchk⟩

/-! ### Move algebra of the spec-modelled engine -/

lemma applySeq_nil {n k : ℕ} (s : PState n k) : applySeq [] s = s := rfl

lemma applySeq_cons {n k : ℕ} (m : PMove n k) (seq : List (PMove n k))
    (s : PState n k) : applySeq (m :: seq) s = applySeq seq (applyMove m s) := rfl

lemma applySeq_append {n k : ℕ} (a b : List (PMove n k)) (s : PState n k) :
    applySeq (a ++ b) s = applySeq b (applySeq a s) := by
  simp [applySeq, List.foldl_append]

lemma applyMove_invMove {n k : ℕ} (m : PMove n k) (s : PState n k) :
    applyMove (invMove m) (applyMove m s) = s := by
  apply PState.ext
  · apply Equiv.ext
    intro x
    simp [applyMove, invMove]
  · funext x
    simp [applyMove, invMove]

lemma invSeq_cons {n k : ℕ} (m : PMove n k) (seq : List (PMove n k)) :
    invSeq (m :: seq) = invSeq seq ++ [invMove m] := by
  simp [invSeq]

lemma applySeq_invSeq {n k : ℕ} : ∀ (seq : List (PMove n k)) (s : PState n k),
    applySeq (invSeq seq) (applySeq seq s) = s := by
  intro seq
  induction seq with
  | nil => intro s; rfl
  | cons m seq ih =>
    intro s
    rw [invSeq_cons, applySeq_cons, applySeq_append, ih]
    exact applyMove_invMove m s

lemma mem_invSeq {n k : ℕ} (seq : List (PMove n k)) (m : PMove n k)
    (hm : m ∈ invSeq seq) : ∃ m0 ∈ seq, m = invMove m0 := by
  simp only [invSeq, List.mem_map, List.mem_reverse] at hm
  obtain ⟨a, ha, rfl⟩ := hm
  exact ⟨a, ha, rfl⟩

lemma compMove_idMove {n k : ℕ} (m : PMove n k) : compMove m (idMove n k) = m := by
  apply PMove.ext
  · apply Equiv.ext
    intro x
    simp [compMove, idMove]
  · funext x
    simp [compMove, idMove]

lemma idMove_compMove {n k : ℕ} (m : PMove n k) : compMove (idMove n k) m = m := by
  apply PMove.ext
  · apply Equiv.ext
    intro x
    simp [compMove, idMove]
  · funext x
    simp [compMove, idMove]

lemma compMove_assoc {n k : ℕ} (m1 m2 m3 : PMove n k) :
    compMove (compMove m1 m2) m3 = compMove m1 (compMove m2 m3) := by
  apply PMove.ext
  · apply Equiv.ext
    intro x
    simp [compMove]
  · funext x
    simp [compMove, add_assoc]

lemma foldl_compMove_eq {n k : ℕ} : ∀ (seq : List (PMove n k)) (m : PMove n k),
    seq.foldl compMove m = compMove m (netEffect seq) := by
  intro seq
  induction seq with
  | nil => intro m; exact (compMove_idMove m).symm
  | cons a seq ih =>
    intro m
    have hcons : netEffect (a :: seq) = compMove a (netEffect seq) := by
      show List.foldl compMove (idMove n k) (a :: seq) = _
      rw [List.foldl_cons, ih (compMove (idMove n k) a), idMove_compMove]
    rw [List.foldl_cons, ih (compMove m a), compMove_assoc, hcons]

lemma netEffect_cons {n k : ℕ} (m : PMove n k) (seq : List (PMove n k)) :
    netEffect (m :: seq) = compMove m (netEffect seq) := by
  rw [netEffect, List.foldl_cons, foldl_compMove_eq, idMove_compMove]

lemma netEffect_append {n k : ℕ} (a b : List (PMove n k)) :
    netEffect (a ++ b) = compMove (netEffect a) (netEffect b) := by
  show List.foldl compMove (idMove n k) (a ++ b) = _
  rw [List.foldl_append, foldl_compMove_eq]
  rfl

lemma netEffect_singleton {n k : ℕ} (m : PMove n k) :
    netEffect [m] = m := by
  rw [netEffect, List.foldl_cons, List.foldl_nil, idMove_compMove]

lemma invMove_compMove {n k : ℕ} (m1 m2 : PMove n k) :
    invMove (compMove m1 m2) = compMove (invMove m2) (invMove m1) := by
  apply PMove.ext
  · apply Equiv.ext
    intro x
    simp [compMove, invMove]
  · funext x
    simp [compMove, invMove, Equiv.trans_apply, Equiv.symm_apply_apply]

lemma invMove_idMove {n k : ℕ} : invMove (idMove n k) = idMove n k := by
  apply PMove.ext
  · apply Equiv.ext
    intro x
    simp [invMove, idMove]
  · funext x
    simp [invMove, idMove]

lemma netEffect_invSeq {n k : ℕ} : ∀ (seq : List (PMove n k)),
    netEffect (invSeq seq) = invMove (netEffect seq) := by
  intro seq
  induction seq with
  | nil => exact invMove_idMove.symm
  | cons m seq ih =>
    rw [invSeq_cons, netEffect_append, netEffect_singleton, ih, netEffect_cons,
      invMove_compMove]

lemma applyMove_compMove {n k : ℕ} (m1 m2 : PMove n k) (s : PState n k) :
    applyMove (compMove m1 m2) s = applyMove m2 (applyMove m1 s) := by
  apply PState.ext
  · apply Equiv.ext
    intro x
    simp [applyMove, compMove]
  · funext x
    simp [applyMove, compMove, add_assoc]

lemma applyMove_idMove {n k : ℕ} (s : PState n k) :
    applyMove (idMove n k) s = s := by
  apply PState.ext
  · apply Equiv.ext
    intro x
    simp [applyMove, idMove]
  · funext x
    simp [applyMove, idMove]

lemma applySeq_foldl_netEffect {n k : ℕ} : ∀ (seq : List (PMove n k))
    (m : PMove n k) (s : PState n k),
    applySeq seq (applyMove m s) = applyMove (seq.foldl compMove m) s := by
  intro seq
  induction seq with
  | nil => intro m s; rfl
  | cons a seq ih =>
    intro m s
    rw [applySeq_cons, ← applyMove_compMove, ih (compMove m a), List.foldl_cons]

lemma applySeq_netEffect {n k : ℕ} (seq : List (PMove n k)) (s : PState n k) :
    applySeq seq s = applyMove (netEffect seq) s := by
  rw [netEffect, ← applySeq_foldl_netEffect, applyMove_idMove]

/-- Claim C6: for any setup sequence `A` and any sequences `B`, `C` (in
particular the precomputed 3-cycle and single-piece reorientation), the full
commutator pattern `A, B, C, B⁻¹, C⁻¹, A⁻¹` leaves every position outside the
orientation-correction target set — the positions that `A` carries into the
support of the bare commutator `B, C, B⁻¹, C⁻¹` — unchanged in both occupying
piece and orientation, on every state. -/
theorem commutator_frame (n k : ℕ) (A B C : List (PMove n k)) (s : PState n k)
    (p : Fin n)
    (hp : ¬ inSupp (commTarget B C) ((netEffect A).perm p)) :
    (applySeq (commutatorSeq A B C) s).pieceAt p = s.pieceAt p
    ∧ (applySeq (commutatorSeq A B C) s).orient p = s.orient p := by
  rw [commTarget, inSupp, not_or, not_ne_iff, not_ne_iff] at hp
  obtain ⟨hfixp, hfixd⟩ := hp
  have hsplit : commutatorSeq A B C
      = A ++ ((B ++ C ++ invSeq B ++ invSeq C) ++ invSeq A) := by
    simp [commutatorSeq, List.append_assoc]
  rw [hsplit, applySeq_append, applySeq_append,
    applySeq_netEffect (invSeq A), netEffect_invSeq,
    applySeq_netEffect (B ++ C ++ invSeq B ++ invSeq C), applySeq_netEffect A]
  constructor
  · simp only [applyMove, invMove, Equiv.trans_apply, Equiv.symm_symm]
    rw [hfixp]
    simp
  · simp only [applyMove, invMove, Equiv.trans_apply, Equiv.symm_symm]
    rw [hfixp, hfixd]
    simp

/-- Claim C6 witness: a concrete commutator pattern on the sample two-piece
family, checked outside the (empty) target set of `B = [demoMove]`,
`C = []`. -/
theorem commutator_frame_witness :
    (¬ inSupp (commTarget [demoMove] ([] : List (PMove 2 2)))
        ((netEffect [demoMove]).perm 0))
    ∧ ((applySeq (commutatorSeq [demoMove] [demoMove] []) demoState).pieceAt 0
          = demoState.pieceAt 0
      ∧ (applySeq (commutatorSeq [demoMove] [demoMove] []) demoState).orient 0
          = demoState.orient 0) :=
  ⟨by decide, commutator_frame 2 2 [demoMove] [demoMove] [] demoState 0 (by decide)⟩

/-! ### The solver of the spec-modelled engine -/

lemma is_solved_iff {n k : ℕ} (s : PState n k) :
    is_solved s = true ↔ s = solvedState n k := by
  rw [is_solved, Bool.and_eq_true, decide_eq_true_eq, decide_eq_true_eq]
  constructor
  · rintro ⟨h1, h2⟩
    exact PState.ext h1 h2
  · rintro rfl
    exact ⟨rfl, rfl⟩

lemma mem_seqsUpTo {n k : ℕ} (moves : List (PMove n k)) :
    ∀ (L : ℕ) (seq : List (PMove n k)), seq.length ≤ L →
      (∀ m ∈ seq, m ∈ moves) → seq ∈ seqsUpTo moves L := by
  intro L
  induction L with
  | zero =>
    intro seq hlen hmem
    have h0 : seq = [] := List.length_eq_zero.mp (by omega)
    subst h0
    simp [seqsUpTo]
  | succ l ih =>
    intro seq hlen hmem
    cases seq with
    | nil => simp [seqsUpTo]
    | cons m seq =>
      rw [seqsUpTo]
      refine List.mem_cons.mpr (Or.inr ?_)
      rw [List.mem_flatMap]
      refine ⟨m, hmem m (by simp), ?_⟩
      rw [List.mem_map]
      exact ⟨seq, ih seq (by simp at hlen; omega)
        (fun a ha => hmem a (by simp [ha])), rfl⟩

lemma find?_seqsUpTo_nil {n k : ℕ} (moves : List (PMove n k)) (b : ℕ)
    (p : List (PMove n k) → Bool) (hp : p [] = true) :
    (seqsUpTo moves b).find? p = some [] := by
  cases b with
  | zero => simp [seqsUpTo, List.find?_cons, hp]
  | succ l => simp [seqsUpTo, List.find?_cons, hp]

lemma exists_short_solution {n k : ℕ} [NeZero k] (moves : List (PMove n k)) :
    ∀ (L : ℕ) (seq : List (PMove n k)) (s : PState n k), seq.length ≤ L →
      (∀ m ∈ seq, m ∈ moves) → applySeq seq s = solvedState n k →
      ∃ seq2, (∀ m ∈ seq2, m ∈ moves) ∧ seq2.length ≤ stateBound n k
        ∧ applySeq seq2 s = solvedState n k := by
  intro L
  induction L with
  | zero =>
    intro seq s hlen hmem happ
    exact ⟨seq, hmem, by omega, happ⟩
  | succ l ih =>
    intro seq s hlen hmem happ
    by_cases hshort : seq.length ≤ stateBound n k
    · exact ⟨seq, hmem, hshort, happ⟩
    · have hcard : Fintype.card (PState n k) < Fintype.card (Fin (seq.length + 1)) := by
        rw [Fintype.card_fin]
        rw [stateBound] at hshort
        omega
      obtain ⟨i, j, hne, heq⟩ := Fintype.exists_ne_map_eq_of_card_lt
        (fun i : Fin (seq.length + 1) => applySeq (seq.take i) s) hcard
      have key : ∀ (i j : Fin (seq.length + 1)), (i : ℕ) < (j : ℕ) →
          applySeq (seq.take i) s = applySeq (seq.take j) s →
          ∃ seq2, (∀ m ∈ seq2, m ∈ moves) ∧ seq2.length ≤ stateBound n k
            ∧ applySeq seq2 s = solvedState n k := by
        intro i j hij hijeq
        have hjlen : (j : ℕ) ≤ seq.length := by omega
        have happ2 : applySeq (seq.take i ++ seq.drop j) s = solvedState n k := by
          rw [applySeq_append, hijeq, ← applySeq_append, List.take_append_drop]
          exact happ
        have hmem2 : ∀ m ∈ seq.take (i : ℕ) ++ seq.drop (j : ℕ), m ∈ moves := by
          intro m hm
          rcases List.mem_append.mp hm with hm1 | hm1
          · exact hmem m (List.Sublist.mem hm1 (List.take_sublist _ _))
          · exact hmem m (List.Sublist.mem hm1 (List.drop_sublist _ _))
        have hlen2 : (seq.take (i : ℕ) ++ seq.drop (j : ℕ)).length ≤ l := by
          rw [List.length_append, List.length_take, List.length_drop]
          omega
        exact ih (seq.take i ++ seq.drop j) s hlen2 hmem2 happ2
      rcases Ne.lt_or_lt hne with hij | hij
      · exact key i j hij heq
      · exact key j i hij heq.symm

/-- Claim C3: on every puzzle state reachable from the solved state by legal
moves (with the legal move set closed under move inversion, as the spec's
Move Sequence inversion requires), the solver returns a move sequence whose
application yields a state on which `is_solved` is true; and on an already
solved state it returns the empty sequence. -/
theorem solve_correct (n k : ℕ) [NeZero k] (moves : List (PMove n k))
    (hinv : ∀ m ∈ moves, invMove m ∈ moves) (s : PState n k)
    (hreach : Reachable moves s) :
    (∃ seq, solve moves s = some seq ∧ is_solved (applySeq seq s) = true)
    ∧ (is_solved s = true → solve moves s = some []) := by
  constructor
  · obtain ⟨seq0, hmem0, happ0⟩ := hreach
    have hsolve0 : applySeq (invSeq seq0) s = solvedState n k := by
      rw [← happ0, applySeq_invSeq]
    have hmem1 : ∀ m ∈ invSeq seq0, m ∈ moves := by
      intro m hm
      obtain ⟨m0, hm0, rfl⟩ := mem_invSeq seq0 m hm
      exact hinv m0 (hmem0 m0 hm0)
    obtain ⟨seq2, hmem2, hlen2, happ2⟩ := exists_short_solution moves
      (invSeq seq0).length (invSeq seq0) s le_rfl hmem1 hsolve0
    have hmemEnum : seq2 ∈ seqsUpTo moves (stateBound n k) :=
      mem_seqsUpTo moves _ seq2 hlen2 hmem2
    have hp2 : is_solved (applySeq seq2 s) = true := (is_solved_iff _).mpr happ2
    rcases hfind : (seqsUpTo moves (stateBound n k)).find?
        (fun seq => is_solved (applySeq seq s)) with _ | sq
    · exfalso
      rw [List.find?_eq_none] at hfind
      exact (hfind seq2 hmemEnum) hp2
    · refine ⟨sq, by rw [solve, hfind], ?_⟩
      have hps := List.find?_some hfind
      simpa using hps
  · intro hs
    rw [solve]
    exact find?_seqsUpTo_nil moves (stateBound n k) _ (by simpa [applySeq] using hs)

/-- Claim C3 witness: the sample family with the single self-inverse move
`demoMove` and the reachable scrambled state `demoState`. -/
theorem solve_correct_witness :
    (∀ m ∈ [demoMove], invMove m ∈ [demoMove])
    ∧ Reachable [demoMove] demoState
    ∧ ((∃ seq, solve [demoMove] demoState = some seq
          ∧ is_solved (applySeq seq demoState) = true)
      ∧ (is_solved demoState = true → solve [demoMove] demoState = some [])) :=
  ⟨by decide, ⟨[demoMove], by simp, rfl⟩,
    solve_correct 2 2 [demoMove] (by decide) demoState ⟨[demoMove], by simp, rfl⟩⟩
